import Mathlib

/-!
Verification development for the spectrogram spoofer (`src/spoof.py`,
class `SpoofedData`).

Shallow embedding conventions:

* A spectrogram array (`numpy` array of shape `[H, W, 4]`, dtype `uint8`)
  is modelled as `Arr3 = List Row`, a list of `H` rows; each `Row` is a
  list of `W` pixels; each `Pixel` is a list of 4 channel values,
  modelled as `Int` (all actual channel values lie in `[0, 255]`, which
  theorems carry as the predicate `bounded255` where it matters).
* `random.randrange(start, stop, step)` draws are passed to each
  operation as explicit parameters.  The set of values Python can draw
  is the predicate `inRandrange start stop step v`; `randrange` raises
  `ValueError` on an empty range, which the operation models with an
  explicit emptiness test on the same bound.
* Operations that can raise a Python exception return
  `Except String α`; operations for which every step is total on the
  shapes the class produces are modelled as total functions.
* Each transformation method of the class loops over all `iters`
  variants; the per-variant body is modelled as a function of one array
  plus that variant's draws (suffix `_var`).  The heap/aliasing level
  (which object each method mutates) is modelled separately by the
  store machine `AugState` at the end of the definitions.
-/

/-- One pixel: the list of its channel values (R, G, B, A in the real data). -/
abbrev Pixel := List Int

/-- One row of the array (index axis 0 fixed): a list of pixels. -/
abbrev Row := List Pixel

/-- A three-dimensional array: a list of rows. -/
abbrev Arr3 := List Row

/-- Shape well-formedness: `a` has `H` rows, each of `W` pixels, each of 4 channels. -/
def WF (H W : Nat) (a : Arr3) : Prop :=
  a.length = H ∧ ∀ r ∈ a, r.length = W ∧ ∀ p ∈ r, p.length = 4

instance (H W : Nat) (a : Arr3) : Decidable (WF H W a) := by
  unfold WF; infer_instance

/-- All channel values lie in the `uint8` range `[0, 255]`. -/
def bounded255 (a : Arr3) : Prop :=
  ∀ r ∈ a, ∀ p ∈ r, ∀ c ∈ p, 0 ≤ c ∧ c ≤ 255

instance (a : Arr3) : Decidable (bounded255 a) := by
  unfold bounded255; infer_instance

/-- The pixel of `a` at row `x`, column `y` (defaulting to `[]` out of range). -/
def pixelAt (a : Arr3) (x y : Nat) : Pixel := (a.getD x []).getD y []

/-- Channel `z` of the pixel of `a` at `(x, y)`. -/
def chanAt (a : Arr3) (x y z : Nat) : Int := (pixelAt a x y).getD z 0

/-- The value set of Python `random.randrange(start, stop, step)` for a
positive `step`: `v` is drawable iff `start ≤ v < stop` and `v - start`
is a multiple of `step`.  (`randrange` raises `ValueError` when this set
is empty, i.e. when `stop ≤ start`.) -/
def inRandrange (start stop step v : Int) : Prop :=
  start ≤ v ∧ v < stop ∧ (v - start) % step = 0

instance (start stop step v : Int) : Decidable (inRandrange start stop step v) := by
  unfold inRandrange; infer_instance

/-- `np.clip(v, 0, 255)` on one value. -/
def clipI (v : Int) : Int := max 0 (min v 255)

/-- One channel step of `change_amp`: the three-way branch
`if c + amplitude > 255 then 255 elif c + amplitude < 0 then 0 else c + amplitude`.
The final branch stores a value already inside `[0, 255]`, so the store
back into the `uint8` cell is lossless. -/
def clampStep (c amplitude : Int) : Int :=
  if c + amplitude > 255 then 255
  else if c + amplitude < 0 then 0
  else c + amplitude

/-!
## `change_amp` (src/spoof.py lines 286-308)

The Python body is

```
for z in range(3):
    if arr[z] + amplitude > 255: arr[z] = 255
    elif arr[z] + amplitude < 0: arr[z] = 0
    else: arr[z] += amplitude
return arr
```

executed against whatever array the caller passes; the writes `arr[z] = ...`
mutate the caller-supplied array in place and the function returns that
same array.
-/

/-- Value computed by `change_amp` on a one-dimensional channel array of
length at least 3 (the shape the spec describes: one pixel): the first
three channels pass through `clampStep`, the rest are untouched. -/
def change_amp (arr : Pixel) (amplitude : Int) : Pixel :=
  arr.mapIdx fun z c => if z < 3 then clampStep c amplitude else c

/-- `change_amp` with the in-place mutation made visible: the result pair is
(the caller-supplied array as it stands after the call, the returned array).
Since the function writes `arr[z]` in place and then returns `arr`, both
components are the same updated array. -/
def change_ampState (arr : Pixel) (amplitude : Int) : Pixel × Pixel :=
  (change_amp arr amplitude, change_amp arr amplitude)

/-- The body of `change_amp` as executed when the argument is a
two-dimensional row slice `arr[y]` of shape `(W, C)` — which is how
`amp_freq` and `amp_time` call it.  Then `arr[z]` is pixel `z` of the row:

* an empty row makes `arr[0]` raise `IndexError`;
* if the pixels are single-channel, `arr[z] + amplitude > 255` is a
  one-element array, whose truth value Python accepts, and the branch
  updates pixel `z` like a scalar (needs at least 3 pixels);
* otherwise the comparison is a multi-element boolean array and its
  truth test raises `ValueError` before any write happens. -/
def change_ampRow (row : Row) (amplitude : Int) : Except String Row :=
  if row.length = 0 then
    .error "IndexError: index 0 is out of bounds"
  else if 3 ≤ row.length ∧ (row.take 3).all (fun q => q.length == 1) then
    .ok (row.mapIdx fun z q => if z < 3 then q.map (fun c => clampStep c amplitude) else q)
  else if (row.headI).length = 1 then
    .error "IndexError: index out of bounds"
  else
    .error "ValueError: the truth value of an array with more than one element is ambiguous"

/-!
## `amp_freq` / `amp_time` (src/spoof.py lines 242-262 and 264-284)

Per-variant body of `amp_freq` (with `H = og_data.shape[0]`,
`W = og_data.shape[1]`, `MAX_AMP_FREQ = 5`, `AMP_FREQ_RANGE = 80`):

```
bands = random.randrange(0, int(H / 5), 1)
amplitude = random.randrange(-80, 80, 1)
loc = random.randrange(0, H - bands, 1)
for x in range(loc, loc + bands):
    for y in range(W):
        arr[y] = self.change_amp(arr[y], amplitude)
```

The draws are parameters; each `randrange` raises `ValueError` when its
range is empty (`int(H / 5) <= 0` for `bands`; `H - bands <= 0` for
`loc`; the `amplitude` range `[-80, 80)` is never empty).  Note the loop
body indexes `arr[y]` with `y` running over the time axis and ignores
`x`, and hands a whole row to `change_amp`.
-/

/-- Read row `i`, transform it with `f`, write it back (`arr[i] = f(arr[i])`);
reading out of range raises `IndexError`. -/
def setRowM (arr : Arr3) (i : Nat) (f : Row → Except String Row) : Except String Arr3 :=
  match arr[i]? with
  | some r => do
      let r2 ← f r
      .ok (arr.set i r2)
  | none => .error "IndexError: index out of bounds"

/-- The band loop of `amp_freq`: `bands` iterations (the outer index is unused
in the body), each passing every `arr[y]` for `y < W` through `change_amp`. -/
def ampBandLoop (W : Nat) (arr : Arr3) (amplitude : Int) (bands : Nat) : Except String Arr3 :=
  (List.range bands).foldlM
    (fun a _ =>
      (List.range W).foldlM
        (fun a2 y => setRowM a2 y (fun r => change_ampRow r amplitude)) a)
    arr

/-- Per-variant body of `amp_freq`, taking the three draws as parameters. -/
def amp_freq_var (H W : Nat) (arr : Arr3) (bands amplitude loc : Int) : Except String Arr3 :=
  if H / 5 = 0 then .error "ValueError: empty range for randrange"
  else if (H : Int) - bands ≤ 0 then .error "ValueError: empty range for randrange"
  else ampBandLoop W arr amplitude bands.toNat

/-- The band loop of `amp_time`: `bands` iterations, each passing every
`arr[x]` for `x < H` through `change_amp`. -/
def ampTimeLoop (H : Nat) (arr : Arr3) (amplitude : Int) (bands : Nat) : Except String Arr3 :=
  (List.range bands).foldlM
    (fun a _ =>
      (List.range H).foldlM
        (fun a2 x => setRowM a2 x (fun r => change_ampRow r amplitude)) a)
    arr

/-- Per-variant body of `amp_time`, taking the three draws as parameters. -/
def amp_time_var (H W : Nat) (arr : Arr3) (bands amplitude loc : Int) : Except String Arr3 :=
  if W / 5 = 0 then .error "ValueError: empty range for randrange"
  else if (W : Int) - bands ≤ 0 then .error "ValueError: empty range for randrange"
  else ampTimeLoop H arr amplitude bands.toNat

/-!
## `adjust_volume` (src/spoof.py lines 61-81)

Per-variant body (with `VOL_ADJUST_RANGE = 50`):

```
delta = random.randrange(-50, 50, 1)
vol = np.full((H, W, 4), [delta, delta, delta, 0])
for x in range(len(arr)):
    result = arr[x] + vol[x]
    result = np.clip(result, 0, 255)
    arr[x] = result
```

`vol` is an integer (int64) array, so `arr[x] + vol[x]` is exact integer
arithmetic; after `np.clip` the values lie in `[0, 255]`, so the store
back into the `uint8` variant is lossless.  On the well-formed shapes
the class produces, `len(arr) = H` and every index is in bounds.
-/

/-- One row of the `vol` array: `W` copies of the pixel `[delta, delta, delta, 0]`. -/
def volPixel (delta : Int) : Pixel := [delta, delta, delta, 0]

/-- Elementwise `np.clip(p + q, 0, 255)` on two pixels of equal length. -/
def addClipPixel (p q : Pixel) : Pixel := List.zipWith (fun c d => clipI (c + d)) p q

/-- Per-variant body of `adjust_volume`, taking the drawn `delta` as parameter. -/
def adjust_volume_var (arr : Arr3) (delta : Int) : Arr3 :=
  arr.map fun r => r.map fun p => addClipPixel p (volPixel delta)

/-!
## `random_noise` (src/spoof.py lines 100-116)

Per-variant body (with `RANDOM_NOISE_CHANCE = 10`):

```
for x in range(H):
    for y in range(W):
        if random.randrange(1, H * W * 4, 1) % 10 == 0:
            z = random.randrange(0, 255, 1)
            arr[x][y] = [z, z, z, 255]
```

Each location takes an independent selector draw, and a value draw when
selected; they are passed as the per-location oracles `sel` and `val`
(the value supplied at an unselected location is simply unused).  For
`H, W >= 1` the selector range `[1, H*W*4)` is nonempty (`H*W*4 >= 4`),
and when `H = 0` or `W = 0` the loops take no draw at all, so no
`randrange` here can see an empty range.
-/

/-- `arr[x][y] = p`: write pixel `(x, y)` in place (no-op out of range;
in the class all these writes are in bounds). -/
def setPix (arr : Arr3) (x y : Nat) (p : Pixel) : Arr3 :=
  arr.set x ((arr.getD x []).set y p)

/-- Per-variant body of `random_noise`, with per-location draw oracles. -/
def random_noise_var (H W : Nat) (arr : Arr3) (sel val : Nat → Nat → Int) : Arr3 :=
  (List.range H).foldl
    (fun a x =>
      (List.range W).foldl
        (fun a2 y =>
          if sel x y % 10 = 0 then setPix a2 x y [val x y, val x y, val x y, 255] else a2)
        a)
    arr

/-- The effect of the inner `random_noise` loop on the single row it
touches (used to state the pointwise characterisation of the fold). -/
def noiseRow (sel val : Nat → Nat → Int) (x n : Nat) (r : Row) : Row :=
  (List.range n).foldl
    (fun r2 y => if sel x y % 10 = 0 then r2.set y [val x y, val x y, val x y, 255] else r2) r

/-!
## `combine_arr` (src/spoof.py lines 140-159)

```
result = np.copy(self.og_data)
for x in range(len(arr1)):
    result[x] = arr1[x] / 2 + arr2[x] / 2
return result
```

`arr1[x] / 2` is float64 true division.  For `uint8` values `c, d` the
halves `c / 2` and `d / 2` and their sum are exactly representable in
float64, and the store into the `uint8` result truncates toward zero,
so each stored cell is the floor of `c / 2 + d / 2`, i.e. `(c + d) / 2`
with integer floor division.  The function reads `og_data` only through
the fresh copy `result`.
-/

/-- One combined cell: floor of `c / 2 + d / 2` for nonnegative `c`, `d`. -/
def combineCell (c d : Int) : Int := (c + d) / 2

/-- Elementwise combination of two pixels. -/
def combinePixel (p q : Pixel) : Pixel := List.zipWith combineCell p q

/-- Elementwise combination of two rows. -/
def combineRow (r s : Row) : Row := List.zipWith combinePixel r s

/-- `combine_arr(arr1, arr2)` with the instance field `og_data` passed
explicitly: start from a copy of `og_data` and overwrite row `x` for
every `x < len(arr1)`. -/
def combine_arr (og a b : Arr3) : Arr3 :=
  (List.range a.length).foldl
    (fun res x => res.set x (combineRow (a.getD x []) (b.getD x []))) og

/-!
## `fill_empty_borders` (src/spoof.py lines 161-202)

`empty = np.full((W, 1, C), 255)` and `data[:, j] == empty` broadcasts
to shape `(W, H, C)`; `np.all` of it is true exactly when every channel
of every pixel in column `j` equals 255.  The code then:

* right side: if column `W-1` is empty, scan left from `W-1` while the
  column is empty and the index is nonnegative (the scan can stop at
  `-1`); if the final index `ne` is `>= 0` it is first decremented when
  positive, `filled = data[:, ne]`, and the loop
  `while ne < W - 1: data[:, ne] = filled; ne += 1` overwrites columns
  `ne .. W-2` (the rightmost column is never written);
* left side: if column `0` is empty, scan right from `0` while the
  column is empty and the index is `< W - 1`; the final index `ne` is
  first incremented when `< W - 1`, `filled = data[:, ne]`, and the loop
  `while ne >= 0: data[:, ne] = filled; ne -= 1` overwrites columns
  `ne .. 0` (modelled with the same set of writes; `filled` aliases a
  column that the remaining writes never touch, so a snapshot is
  equivalent).

The model takes the width `W` of `og_data` as a parameter (the code
reads `self.og_data.shape`) and assumes `W >= 1` shapes (for `W = 0`
the Python would raise on `data[:, -1]`).
-/

/-- Column `j` of `data` (`data[:, j]`): one pixel per row. -/
def getCol (data : Arr3) (j : Nat) : List Pixel := data.map fun r => r.getD j []

/-- `data[:, j] = filled`: write pixel `j` of row `i` to entry `i` of `filled`. -/
def setCol (data : Arr3) (j : Nat) (filled : List Pixel) : Arr3 :=
  data.mapIdx fun i r => r.set j (filled.getD i [])

/-- `np.all(data[:, j] == empty)`: every channel of every pixel of column `j` is 255. -/
def isEmptyCol (data : Arr3) (j : Nat) : Bool :=
  data.all fun r => (r.getD j []).all fun c => c == 255

/-- Structural form of the right-side scan; the fuel is the number of
iterations the loop can still take (`(j + 1).toNat` at entry), so the
`0` case coincides with the `j < 0` exit and the recursion mirrors the
`while` loop exactly. -/
def scanLeftAux (data : Arr3) : Nat → Int → Int
  | 0, j => j
  | fuel + 1, j =>
    if j < 0 then j
    else if isEmptyCol data j.toNat then scanLeftAux data fuel (j - 1)
    else j

/-- The right-side scan: from index `j` downward while the column is empty
and the index is nonnegative (stops at the first non-empty column or at
`-1`; at `-1` the Python loop condition still reads `data[:, -1]` — a
valid negative index, the last column — and then exits on `-1 >= 0`, so
the read has no effect on the result). -/
def scanLeft (data : Arr3) (j : Int) : Int := scanLeftAux data (j + 1).toNat j

/-- Structural form of the left-side scan; the fuel is `W - 1 - j` at
entry, so the `0` case coincides with the `W - 1 <= j` exit. -/
def scanRightAux (data : Arr3) : Nat → Nat → Nat
  | 0, j => j
  | fuel + 1, j => if isEmptyCol data j then scanRightAux data fuel (j + 1) else j

/-- The left-side scan: from index `j` rightward while the column is empty
and the index is `< W - 1` (stops at the first non-empty column or at `W - 1`). -/
def scanRight (W : Nat) (data : Arr3) (j : Nat) : Nat := scanRightAux data (W - 1 - j) j

/-- The right-side branch of `fill_empty_borders`. -/
def fillRight (W : Nat) (data : Arr3) : Arr3 :=
  if isEmptyCol data (W - 1) then
    let ne := scanLeft data ((W : Int) - 1)
    if 0 ≤ ne then
      let ne2 : Nat := if 0 < ne then ne.toNat - 1 else ne.toNat
      let filled := getCol data ne2
      (List.range' ne2 (W - 1 - ne2)).foldl (fun a j => setCol a j filled) data
    else data
  else data

/-- The left-side branch of `fill_empty_borders` (the write loop runs from
the adjusted index down to 0; the writes hit distinct columns, listed here
in the same descending order).  The guard `if not_empty <= W - 1` of the
source is always true — the scan never goes past `W - 1` — and is omitted. -/
def fillLeft (W : Nat) (data : Arr3) : Arr3 :=
  if isEmptyCol data 0 then
    let ne := scanRight W data 0
    let ne2 := if ne < W - 1 then ne + 1 else ne
    let filled := getCol data ne2
    (List.range (ne2 + 1)).reverse.foldl (fun a j => setCol a j filled) data
  else data

/-- `fill_empty_borders(data)`: the right-side branch runs first, then the
left-side branch on the updated array. -/
def fill_empty_borders (W : Nat) (data : Arr3) : Arr3 :=
  fillLeft W (fillRight W data)

/-!
## `time_shift` (src/spoof.py lines 83-98)

Per-variant body:

```
shift = random.randrange(0, W, 4)
arr = self.fill_empty_borders(arr)
arr = np.roll(arr, shift)
```

`np.roll` with no axis flattens the array in row-major order, rotates
the flat sequence so that the element at flat index `i` moves to flat
index `(i + shift) % n`, and reshapes to the original shape.  The
`shift` draw does not depend on the array, so drawing it before or
after the border fill is indistinguishable; for `W >= 1` its range
`[0, W)` with step 4 is nonempty (it always contains 0).
-/

/-- Row-major flattening of a three-dimensional array. -/
def flat3 (a : Arr3) : List Int := (a.flatten).flatten

/-- Reshape a flat sequence to shape `[H, W, 4]` in row-major order: the
cell at `(x, y, z)` is the flat element at index `(x * W + y) * 4 + z`. -/
def unflat3 (H W : Nat) (l : List Int) : Arr3 :=
  (List.range H).map fun x =>
    (List.range W).map fun y =>
      (List.range 4).map fun z => l.getD ((x * W + y) * 4 + z) 0

/-- Rotation of a flat sequence as `np.roll` performs it: the element at
index `i` moves to index `(i + s) % n`. -/
def rollFlat (l : List Int) (s : Nat) : List Int :=
  l.drop (l.length - s % l.length) ++ l.take (l.length - s % l.length)

/-- `np.roll(a, s)` (no axis): flatten, rotate, reshape to the shape of `a`
(the channel count is 4 throughout the data model). -/
def npRoll (a : Arr3) (s : Nat) : Arr3 :=
  unflat3 a.length ((a.headI).length) (rollFlat (flat3 a) s)

/-- Per-variant body of `time_shift`, taking the drawn `shift` as parameter. -/
def time_shift_var (W : Nat) (arr : Arr3) (shift : Nat) : Arr3 :=
  npRoll (fill_empty_borders W arr) shift

/-!
## Heap-level model (`__init__`, src/spoof.py lines 36-59, and the
methods' mutation structure)

To settle what the methods mutate, arrays are placed in a store of
cells.  `__init__` puts the loaded source array in cell 0 (`og_data`)
and, for each of the `iters` variants, appends a fresh cell holding
`np.copy(og_data)`; `new_data` is the list of the variants' cell
indices.

Each method loops over the variants in order.  `adjust_volume`,
`random_noise`, `amp_freq`, `amp_time` and `fill_empty_borders` write
the variant's own cell in place; `time_shift` first mutates the
variant's cell through `fill_empty_borders`, then rebinds the variant
to a fresh cell holding the rolled array (`np.roll` allocates);
`background_noise` rebinds the variant to the fresh cell returned by
`combine_arr` (which starts from `np.copy(og_data)`).  If a variant's
body raises (as `amp_freq` / `amp_time` can), the exception aborts the
whole call sequence; no write precedes the raise, so the state at the
raise is the state at the start of that variant's body.
-/

/-- The augmenter state: the store of array cells and the variants'
cell indices (`og_data` lives in cell 0). -/
structure AugState where
  store : List Arr3
  vars : List Nat

/-- State after `__init__`: `og` in cell 0, `n` fresh copies in cells
`1 .. n`. -/
def initState (og : Arr3) (n : Nat) : AugState :=
  ⟨og :: List.replicate n og, (List.range n).map (· + 1)⟩

/-- One method call, with all its per-variant draws. -/
inductive Op where
  | adjVol (delta : Nat → Int)
  | ampF (bands amplitude loc : Nat → Int)
  | ampT (bands amplitude loc : Nat → Int)
  | noise (sel val : Nat → Nat → Nat → Int)
  | tshift (shift : Nat → Nat)
  | fillB
  | combine (bg : Nat → Arr3)

/-- The array currently bound to variant `i`. -/
def readVar (st : AugState) (i : Nat) : Arr3 := st.store.getD (st.vars.getD i 0) []

/-- Overwrite variant `i`'s cell in place. -/
def writeVar (st : AugState) (i : Nat) (a : Arr3) : AugState :=
  ⟨st.store.set (st.vars.getD i 0) a, st.vars⟩

/-- Append a fresh cell holding `a` and rebind variant `i` to it. -/
def allocVar (st : AugState) (i : Nat) (a : Arr3) : AugState :=
  ⟨st.store ++ [a], st.vars.set i st.store.length⟩

/-- The body one method runs for variant `i` (`none` models a raised
exception, with no preceding write). -/
def stepImg (op : Op) (st : AugState) (i : Nat) : Option AugState :=
  let og := st.store.getD 0 []
  let H := og.length
  let W := (og.headI).length
  match op with
  | .adjVol delta => some (writeVar st i (adjust_volume_var (readVar st i) (delta i)))
  | .ampF bands amplitude loc =>
      match amp_freq_var H W (readVar st i) (bands i) (amplitude i) (loc i) with
      | .ok a => some (writeVar st i a)
      | .error _ => none
  | .ampT bands amplitude loc =>
      match amp_time_var H W (readVar st i) (bands i) (amplitude i) (loc i) with
      | .ok a => some (writeVar st i a)
      | .error _ => none
  | .noise sel val => some (writeVar st i (random_noise_var H W (readVar st i) (sel i) (val i)))
  | .tshift shift =>
      let filled := fill_empty_borders W (readVar st i)
      some (allocVar (writeVar st i filled) i (npRoll filled (shift i)))
  | .fillB => some (writeVar st i (fill_empty_borders W (readVar st i)))
  | .combine bg => some (allocVar st i (combine_arr og (readVar st i) (bg i)))

/-- Run the per-variant bodies over a list of variant indices, stopping at
the state in which an exception is raised (`Bool` = raised). -/
def runImgs (f : AugState → Nat → Option AugState) : AugState → List Nat → AugState × Bool
  | st, [] => (st, false)
  | st, i :: is =>
      match f st i with
      | some st2 => runImgs f st2 is
      | none => (st, true)

/-- One whole method call: its body over variants `0 .. iters - 1`. -/
def runOp (st : AugState) (op : Op) : AugState × Bool :=
  runImgs (stepImg op) st (List.range st.vars.length)

/-- A sequence of method calls; a raised exception aborts the rest of the
sequence, leaving the state at the raise. -/
def runOps (st : AugState) : List Op → AugState
  | [] => st
  | op :: ops =>
      match runOp st op with
      | (st2, false) => runOps st2 ops
      | (st2, true) => st2

/-- Store invariant: `og_data` still sits unchanged in cell 0, the store is
nonempty, and every variant index points past cell 0. -/
def ogInv (og : Arr3) (st : AugState) : Prop :=
  st.store.getD 0 [] = og ∧ 1 ≤ st.store.length ∧ ∀ i ∈ st.vars, 1 ≤ i

/-!
## Concrete arrays used by the counterexample / bug theorems
-/

/-- A 10 by 1 all-100 array: `int(10 / 5) = 2`, so `bands = 1` is drawable. -/
def bugFreqArr : Arr3 := List.replicate 10 [[100, 100, 100, 255]]

/-- A 4 by 4 all-100 array: `int(4 / 5) = 0`, so the `bands` draw of
`amp_freq` has an empty range. -/
def smallArr : Arr3 := List.replicate 4 (List.replicate 4 [100, 100, 100, 255])

/-- The 2 by 4 scenario array: columns hold 10s, 20s, 30s and the empty
(255) column. -/
def borderArr : Arr3 :=
  [[[10,10,10,255],[20,20,20,255],[30,30,30,255],[255,255,255,255]],
   [[10,10,10,255],[20,20,20,255],[30,30,30,255],[255,255,255,255]]]

/-- A 1 by 4 array whose columns are empty, content 10s, empty, content 20s. -/
def idemArr : Arr3 :=
  [[[255,255,255,255],[10,10,10,255],[255,255,255,255],[20,20,20,255]]]

/-- Witness input: a 5 by 5 all-100 array. -/
def w5arr : Arr3 := List.replicate 5 (List.replicate 5 [100, 100, 100, 255])

/-- Witness input: a 1 by 8 array of distinct grayscale pixels. -/
def w6arr : Arr3 :=
  [[[1,1,1,255],[2,2,2,255],[3,3,3,255],[4,4,4,255],
    [5,5,5,255],[6,6,6,255],[7,7,7,255],[8,8,8,255]]]

/-- Witness input: a single pixel with mixed channel values. -/
def w7arr : Arr3 := [[[200, 10, 255, 255]]]

/-- Witness input: a single arbitrary pixel. -/
def w8arr : Arr3 := [[[5, 6, 7, 8]]]

/-- Witness inputs for the combine symmetry theorem. -/
def w9og : Arr3 := [[[7, 7, 7, 7]]]

def w9a : Arr3 := [[[0, 0, 0, 0]]]

def w9b : Arr3 := [[[255, 255, 255, 255]]]

/-!
## Conclusion predicates of the main theorems (so that witnesses can
restate them at concrete inputs without duplication)
-/

/-- Error behaviour of the transformation draws and of `amp_freq` /
`amp_time` on a valid-shape input: the fixed-range draws and the
shape-dependent draws of `adjust_volume`, `time_shift` and
`random_noise` are over nonempty ranges, while the `bands` draw of
`amp_freq` (resp. `amp_time`) is over an empty range exactly when
`H < 5` (resp. `W < 5`), and for a drawable `bands` the method returns
the variant unchanged when `bands = 0` and raises `ValueError` inside
`change_amp` when `bands >= 1`. -/
def ampSafetySpec (H W : Nat) (arr : Arr3) : Prop :=
  inRandrange (-50) 50 1 0 ∧
  inRandrange (-80) 80 1 0 ∧
  inRandrange 0 255 1 0 ∧
  inRandrange 0 (W : Int) 4 0 ∧
  inRandrange 1 ((H * W * 4 : Nat) : Int) 1 1 ∧
  (H < 5 → ∀ b : Int, ¬ inRandrange 0 ((H / 5 : Nat) : Int) 1 b) ∧
  (W < 5 → ∀ b : Int, ¬ inRandrange 0 ((W / 5 : Nat) : Int) 1 b) ∧
  (∀ bands amplitude loc : Int, inRandrange 0 ((H / 5 : Nat) : Int) 1 bands →
    (bands = 0 → amp_freq_var H W arr bands amplitude loc = .ok arr) ∧
    (1 ≤ bands → amp_freq_var H W arr bands amplitude loc =
      .error "ValueError: the truth value of an array with more than one element is ambiguous")) ∧
  (∀ bands amplitude loc : Int, inRandrange 0 ((W / 5 : Nat) : Int) 1 bands →
    (bands = 0 → amp_time_var H W arr bands amplitude loc = .ok arr) ∧
    (1 ≤ bands → amp_time_var H W arr bands amplitude loc =
      .error "ValueError: the truth value of an array with more than one element is ambiguous"))

/-- Behaviour of `adjust_volume` on one variant: the drawn set is
`[-50, 49]`, the first three channels of every pixel get `delta` added
and clipped to `[0, 255]`, the fourth channel is unchanged, and the
all-255 scenario with `delta = -50` gives 205 on R, G, B. -/
def volumeSpec (H W : Nat) (arr : Arr3) (delta : Int) : Prop :=
  (∀ t : Int, inRandrange (-50) 50 1 t ↔ (-50 ≤ t ∧ t ≤ 49)) ∧
  (∀ x y : Nat, x < H → y < W →
    (∀ z, z < 3 → chanAt (adjust_volume_var arr delta) x y z
        = clipI (chanAt arr x y z + delta)) ∧
    chanAt (adjust_volume_var arr delta) x y 3 = chanAt arr x y 3) ∧
  adjust_volume_var (List.replicate 4 (List.replicate 4 [255, 255, 255, 255])) (-50)
    = List.replicate 4 (List.replicate 4 [205, 205, 205, 255])

/-- Behaviour of `random_noise` on one variant: the selector set is
`[1, H*W*4)`, the value set is `[0, 254]`, and every pixel is replaced
by the drawn grayscale value with alpha 255 exactly when its selector
draw is divisible by 10, and kept unchanged otherwise. -/
def noiseSpec (H W : Nat) (arr : Arr3) (sel val : Nat → Nat → Int) : Prop :=
  (∀ t : Int, inRandrange 1 ((H * W * 4 : Nat) : Int) 1 t ↔ (1 ≤ t ∧ t < ((H * W * 4 : Nat) : Int))) ∧
  (∀ t : Int, inRandrange 0 255 1 t ↔ (0 ≤ t ∧ t ≤ 254)) ∧
  ∀ x y : Nat, x < H → y < W →
    pixelAt (random_noise_var H W arr sel val) x y =
      (if sel x y % 10 = 0 then [val x y, val x y, val x y, 255] else pixelAt arr x y)

/-- Behaviour of `time_shift` on one variant: the drawn set is the
multiples of 4 in `[0, W)`, and the result is the flattened sequence of
the border-filled array circularly shifted by `s` (flat element `i`
moves to flat index `(i + s) % (H * W * 4)`). -/
def timeShiftSpec (H W : Nat) (arr : Arr3) (s : Nat) : Prop :=
  (∀ t : Int, inRandrange 0 (W : Int) 4 t ↔ (0 ≤ t ∧ t < (W : Int) ∧ 4 ∣ t)) ∧
  time_shift_var W arr s = npRoll (fill_empty_borders W arr) s ∧
  (flat3 (time_shift_var W arr s)).length = H * W * 4 ∧
  (∀ i, i < H * W * 4 →
    (flat3 (time_shift_var W arr s)).getD ((i + s) % (H * W * 4)) 0
      = (flat3 (fill_empty_borders W arr)).getD i 0)

/-!
## General list helper lemmas
-/

theorem getD_eq_getElem_of_lt {α : Type} (l : List α) (d : α) {i : Nat}
    (h : i < l.length) : l.getD i d = l[i] := by
  simp [List.getD_eq_getElem?_getD, List.getElem?_eq_getElem, h]

theorem getD_set_same {α : Type} (l : List α) (v d : α) {i : Nat}
    (h : i < l.length) : (l.set i v).getD i d = v := by
  rw [getD_eq_getElem_of_lt _ _ (by simpa using h)]
  simp [List.getElem_set, h]

theorem getD_set_ne {α : Type} (l : List α) (v d : α) {i j : Nat}
    (h : i ≠ j) : (l.set i v).getD j d = l.getD j d := by
  simp [List.getD_eq_getElem?_getD, List.getElem?_set_ne h]

theorem set_getD_self {α : Type} (l : List α) (d : α) (i : Nat) :
    l.set i (l.getD i d) = l := by
  by_cases h : i < l.length
  · apply List.ext_getElem?
    intro j
    rw [List.getElem?_set]
    split
    · next he => subst he; simp [List.getD_eq_getElem?_getD, List.getElem?_eq_getElem, h]
    · rfl
  · exact List.set_eq_of_length_le (by omega)

theorem len4 {p : Pixel} (h : p.length = 4) : ∃ a b c d, p = [a, b, c, d] := by
  match p, h with
  | [a, b, c, d], _ => exact ⟨a, b, c, d, rfl⟩

/-- The `getD` entry at an in-range index is a member of the list. -/
theorem getD_mem_of_lt {α : Type} (l : List α) (d : α) {i : Nat}
    (h : i < l.length) : l.getD i d ∈ l := by
  rw [getD_eq_getElem_of_lt l d h]
  exact List.getElem_mem h

/-- Row `x` of a well-formed array, for `x < H`, has length `W`. -/
theorem WF_row {H W : Nat} {a : Arr3} (h : WF H W a) {x : Nat} (hx : x < H) :
    (a.getD x []).length = W := by
  obtain ⟨hlen, hall⟩ := h
  exact (hall _ (getD_mem_of_lt a [] (by omega))).1

/-- Pixel `(x, y)` of a well-formed array, for `x < H`, `y < W`, has 4 channels. -/
theorem WF_pixel {H W : Nat} {a : Arr3} (h : WF H W a) {x y : Nat}
    (hx : x < H) (hy : y < W) : (pixelAt a x y).length = 4 := by
  obtain ⟨hlen, hall⟩ := h
  have hrmem : a.getD x [] ∈ a := getD_mem_of_lt a [] (by omega)
  obtain ⟨hrl, hpix⟩ := hall _ hrmem
  exact hpix _ (getD_mem_of_lt _ [] (by omega))

/-- Channel values of a bounded array lie in `[0, 255]`. -/
theorem bounded_chan {a : Arr3} (h : bounded255 a) {x y z : Nat}
    (hx : x < a.length) (hy : y < (a.getD x []).length)
    (hz : z < (pixelAt a x y).length) :
    0 ≤ chanAt a x y z ∧ chanAt a x y z ≤ 255 := by
  have hrmem : a.getD x [] ∈ a := getD_mem_of_lt a [] hx
  have hpmem : pixelAt a x y ∈ a.getD x [] := getD_mem_of_lt _ [] hy
  have hcmem : (pixelAt a x y).getD z 0 ∈ pixelAt a x y := getD_mem_of_lt _ 0 hz
  exact h _ hrmem _ hpmem _ hcmem

theorem getD_map_of_lt {α β : Type} (l : List α) (f : α → β) (d : β) {i : Nat}
    (h : i < l.length) : (l.map f).getD i d = f l[i] := by
  simp [List.getD_eq_getElem?_getD, List.getElem?_map, List.getElem?_eq_getElem, h]


/-!
## Lemmas about the `amp_freq` / `amp_time` band loop
-/

theorem ampBandLoop_zero (W : Nat) (arr : Arr3) (amp : Int) :
    ampBandLoop W arr amp 0 = .ok arr := rfl

theorem ampTimeLoop_eq_band (N : Nat) (arr : Arr3) (amp : Int) (bands : Nat) :
    ampTimeLoop N arr amp bands = ampBandLoop N arr amp bands := rfl

theorem change_ampRow_err (row : Row) (amp : Int)
    (hlen : 1 ≤ row.length) (hpix : 2 ≤ (row.getD 0 []).length) :
    change_ampRow row amp =
      .error "ValueError: the truth value of an array with more than one element is ambiguous" := by
  obtain ⟨p, rest, rfl⟩ : ∃ p rest, row = p :: rest := by
    cases row with
    | nil => simp at hlen
    | cons p rest => exact ⟨p, rest, rfl⟩
  have hp : 2 ≤ p.length := hpix
  unfold change_ampRow
  rw [if_neg (by simp), if_neg, if_neg]
  · show ¬ p.length = 1
    omega
  · rintro ⟨-, hall⟩
    have : p ∈ (p :: rest).take 3 := by simp
    have := List.all_eq_true.mp hall _ this
    simp at this
    omega

theorem ampBandLoop_err (W : Nat) (arr : Arr3) (amp : Int) (bands : Nat)
    (hW : 1 ≤ W) (hb : 1 ≤ bands) (hlen : 1 ≤ arr.length)
    (hrow : 1 ≤ (arr.getD 0 []).length) (hpix : 2 ≤ ((arr.getD 0 []).getD 0 []).length) :
    ampBandLoop W arr amp bands =
      .error "ValueError: the truth value of an array with more than one element is ambiguous" := by
  obtain ⟨n, rfl⟩ : ∃ n, bands = n + 1 := ⟨bands - 1, by omega⟩
  obtain ⟨m, rfl⟩ : ∃ m, W = m + 1 := ⟨W - 1, by omega⟩
  have hread : arr[0]? = some (arr.getD 0 []) := by
    rw [List.getElem?_eq_getElem (by omega), getD_eq_getElem_of_lt arr [] (by omega)]
  have hca : change_ampRow (arr.getD 0 []) amp =
      .error "ValueError: the truth value of an array with more than one element is ambiguous" :=
    change_ampRow_err _ amp hrow hpix
  have hsr : setRowM arr 0 (fun r => change_ampRow r amp) =
      .error "ValueError: the truth value of an array with more than one element is ambiguous" := by
    unfold setRowM
    rw [hread]
    show (do
        let r2 ← change_ampRow (arr.getD 0 []) amp
        Except.ok (arr.set 0 r2)) =
      Except.error "ValueError: the truth value of an array with more than one element is ambiguous"
    rw [hca]
    rfl
  have hinner : (List.range (m + 1)).foldlM
      (fun a2 y => setRowM a2 y (fun r => change_ampRow r amp)) arr =
        .error "ValueError: the truth value of an array with more than one element is ambiguous" := by
    rw [List.range_succ_eq_map, List.foldlM_cons, hsr]
    rfl
  unfold ampBandLoop
  rw [List.range_succ_eq_map n, List.foldlM_cons, hinner]
  rfl


/-!
## Lemmas about the `random_noise` folds
-/

theorem noiseRow_succ (sel val : Nat → Nat → Int) (x n : Nat) (r : Row) :
    noiseRow sel val x (n + 1) r =
      (if sel x n % 10 = 0 then (noiseRow sel val x n r).set n [val x n, val x n, val x n, 255]
       else noiseRow sel val x n r) := by
  unfold noiseRow
  rw [List.range_succ, List.foldl_append]
  simp only [List.foldl_cons, List.foldl_nil]

theorem noiseRow_length (sel val : Nat → Nat → Int) (x n : Nat) (r : Row) :
    (noiseRow sel val x n r).length = r.length := by
  induction n with
  | zero => rfl
  | succ n ih =>
    rw [noiseRow_succ]
    split
    · rw [List.length_set]; exact ih
    · exact ih

theorem noiseRow_getD (sel val : Nat → Nat → Int) (x n : Nat) (r : Row) (y : Nat)
    (hy : y < r.length) :
    (noiseRow sel val x n r).getD y [] =
      if y < n ∧ sel x y % 10 = 0 then [val x y, val x y, val x y, 255]
      else r.getD y [] := by
  induction n with
  | zero => simp [noiseRow]
  | succ n ih =>
    rw [noiseRow_succ]
    by_cases hc : sel x n % 10 = 0
    · rw [if_pos hc]
      by_cases hyn : y = n
      · subst hyn
        rw [getD_set_same _ _ _ (by rw [noiseRow_length]; exact hy)]
        rw [if_pos ⟨Nat.lt_succ_self y, hc⟩]
      · rw [getD_set_ne _ _ _ (fun h => hyn h.symm), ih]
        have hiff : (y < n ∧ sel x y % 10 = 0) ↔ (y < n + 1 ∧ sel x y % 10 = 0) := by
          constructor
          · rintro ⟨h1, h2⟩; exact ⟨by omega, h2⟩
          · rintro ⟨h1, h2⟩; exact ⟨by omega, h2⟩
        rw [if_congr hiff rfl rfl]
    · rw [if_neg hc, ih]
      by_cases hyn : y = n
      · subst hyn
        rw [if_neg (by rintro ⟨h1, -⟩; omega), if_neg (by rintro ⟨-, h2⟩; exact hc h2)]
      · have hiff : (y < n ∧ sel x y % 10 = 0) ↔ (y < n + 1 ∧ sel x y % 10 = 0) := by
          constructor
          · rintro ⟨h1, h2⟩; exact ⟨by omega, h2⟩
          · rintro ⟨h1, h2⟩; exact ⟨by omega, h2⟩
        rw [if_congr hiff rfl rfl]

theorem noise_inner (sel val : Nat → Nat → Int) (x : Nat) (ys : List Nat) (a : Arr3)
    (hx : x < a.length) :
    ys.foldl
      (fun a2 y => if sel x y % 10 = 0 then setPix a2 x y [val x y, val x y, val x y, 255] else a2) a
    = a.set x (ys.foldl
        (fun r2 y => if sel x y % 10 = 0 then r2.set y [val x y, val x y, val x y, 255] else r2)
        (a.getD x [])) := by
  induction ys generalizing a with
  | nil => simp only [List.foldl_nil]; rw [set_getD_self]
  | cons y tail ih =>
    simp only [List.foldl_cons]
    by_cases hc : sel x y % 10 = 0
    · rw [if_pos hc, if_pos hc]
      have hx2 : x < (setPix a x y [val x y, val x y, val x y, 255]).length := by
        unfold setPix
        rw [List.length_set]
        exact hx
      rw [ih _ hx2]
      unfold setPix
      rw [getD_set_same _ _ _ hx, List.set_set]
    · rw [if_neg hc, if_neg hc]
      exact ih a hx

theorem noise_inner_length (sel val : Nat → Nat → Int) (x : Nat) (ys : List Nat) (a : Arr3) :
    (ys.foldl
      (fun a2 y => if sel x y % 10 = 0 then setPix a2 x y [val x y, val x y, val x y, 255] else a2)
      a).length = a.length := by
  induction ys generalizing a with
  | nil => rfl
  | cons y tail ih =>
    simp only [List.foldl_cons]
    split
    · rw [ih]
      unfold setPix
      rw [List.length_set]
    · exact ih a

theorem noise_outer_length (sel val : Nat → Nat → Int) (W n : Nat) (a : Arr3) :
    ((List.range n).foldl
      (fun a2 x =>
        (List.range W).foldl
          (fun a3 y => if sel x y % 10 = 0 then setPix a3 x y [val x y, val x y, val x y, 255] else a3)
          a2) a).length = a.length := by
  induction n with
  | zero => rfl
  | succ n ih =>
    rw [List.range_succ, List.foldl_append]
    simp only [List.foldl_cons, List.foldl_nil]
    rw [noise_inner_length]
    exact ih

theorem noise_inner_oob (sel val : Nat → Nat → Int) (x : Nat) (ys : List Nat) (a : Arr3)
    (hx : a.length ≤ x) :
    ys.foldl
      (fun a2 y => if sel x y % 10 = 0 then setPix a2 x y [val x y, val x y, val x y, 255] else a2) a
      = a := by
  induction ys with
  | nil => rfl
  | cons y tail ih =>
    simp only [List.foldl_cons]
    have hstep : (if sel x y % 10 = 0 then setPix a x y [val x y, val x y, val x y, 255] else a) = a := by
      split
      · unfold setPix
        exact List.set_eq_of_length_le hx
      · rfl
    rw [hstep]
    exact ih

theorem noise_outer_getD (sel val : Nat → Nat → Int) (W n : Nat) (a : Arr3) (x2 : Nat)
    (hx2 : x2 < a.length) :
    ((List.range n).foldl
      (fun a2 x =>
        (List.range W).foldl
          (fun a3 y => if sel x y % 10 = 0 then setPix a3 x y [val x y, val x y, val x y, 255] else a3)
          a2) a).getD x2 [] =
      if x2 < n then noiseRow sel val x2 W (a.getD x2 []) else a.getD x2 [] := by
  induction n with
  | zero => simp
  | succ n ih =>
    rw [List.range_succ, List.foldl_append]
    simp only [List.foldl_cons, List.foldl_nil]
    by_cases hna : n < a.length
    · rw [noise_inner sel val n (List.range W) _ (by rw [noise_outer_length]; omega)]
      by_cases hxn : x2 = n
      · subst hxn
        rw [getD_set_same _ _ _ (by rw [noise_outer_length]; omega)]
        rw [ih, if_neg (by omega), if_pos (by omega)]
        rfl
      · rw [getD_set_ne _ _ _ (fun h => hxn h.symm), ih]
        by_cases hlt : x2 < n
        · rw [if_pos hlt, if_pos (by omega)]
        · rw [if_neg hlt, if_neg (by omega)]
    · rw [noise_inner_oob sel val n (List.range W) _ (by rw [noise_outer_length]; omega)]
      rw [ih, if_pos (by omega), if_pos (by omega)]

/-!
## Lemmas for `np.roll`, reshaping and `fill_empty_borders`
-/

theorem map_range_getD (l : List Int) :
    (List.range l.length).map (fun j => l.getD j 0) = l := by
  apply List.ext_getElem
  · simp
  · intro i h1 h2
    simp [List.getD_eq_getElem?_getD, List.getElem?_eq_getElem, h2]

theorem flatten_range_map {α : Type} (m : Nat) (h : Nat → α) :
    ∀ n, ((List.range n).map (fun x => (List.range m).map (fun y => h (x * m + y)))).flatten
      = (List.range (n * m)).map h := by
  intro n
  induction n with
  | zero => simp
  | succ n ih =>
    rw [List.range_succ, List.map_append, List.flatten_append, ih]
    simp only [List.map_cons, List.map_nil, List.flatten_cons, List.flatten_nil, List.append_nil]
    rw [show (n + 1) * m = n * m + m by ring, List.range_add, List.map_append, List.map_map]
    rfl

theorem flat3_unflat3 (H W : Nat) (l : List Int) (hl : l.length = H * W * 4) :
    flat3 (unflat3 H W l) = l := by
  have e1 : unflat3 H W l
      = (List.range H).map (fun x => (List.range W).map
          (fun y => (fun t => (List.range 4).map (fun z => l.getD (t * 4 + z) 0)) (x * W + y))) := rfl
  have e2 : ((List.range (H * W)).map
      (fun t => (List.range 4).map (fun z => l.getD (t * 4 + z) 0))).flatten
        = (List.range (H * W * 4)).map (fun j => l.getD j 0) :=
    flatten_range_map 4 (fun j => l.getD j 0) (H * W)
  unfold flat3
  rw [e1, flatten_range_map W (fun t => (List.range 4).map (fun z => l.getD (t * 4 + z) 0)) H]
  rw [e2, show H * W * 4 = l.length from hl.symm]
  exact map_range_getD l

theorem rollFlat_length (l : List Int) (s : Nat) : (rollFlat l s).length = l.length := by
  unfold rollFlat
  rw [List.length_append, List.length_drop, List.length_take]
  omega

theorem rollFlat_getD (l : List Int) (s i : Nat) (hi : i < l.length) :
    (rollFlat l s).getD ((i + s) % l.length) 0 = l.getD i 0 := by
  have hn : 0 < l.length := by omega
  have hq : s % l.length < l.length := Nat.mod_lt _ hn
  have hstep : (i + s) % l.length = (i + s % l.length) % l.length :=
    (Nat.add_mod_mod i s l.length).symm
  by_cases hik : i < l.length - s % l.length
  · have hmod : (i + s) % l.length = i + s % l.length := by
      rw [hstep]
      exact Nat.mod_eq_of_lt (by omega)
    rw [hmod]
    unfold rollFlat
    rw [List.getD_eq_getElem?_getD, List.getElem?_append, List.length_drop]
    rw [if_neg (by omega)]
    rw [show i + s % l.length - (l.length - (l.length - s % l.length)) = i by omega]
    rw [List.getElem?_take, if_pos (by omega), ← List.getD_eq_getElem?_getD]
  · have hmod : (i + s) % l.length = i + s % l.length - l.length := by
      rw [hstep, Nat.mod_eq_sub_mod (by omega), Nat.mod_eq_of_lt (by omega)]
    rw [hmod]
    unfold rollFlat
    rw [List.getD_eq_getElem?_getD, List.getElem?_append, List.length_drop]
    rw [if_pos (by omega)]
    rw [List.getElem?_drop]
    rw [show l.length - s % l.length + (i + s % l.length - l.length) = i by omega]
    rw [← List.getD_eq_getElem?_getD]

theorem headI_eq_getD (l : Arr3) : l.headI = l.getD 0 [] := by
  cases l <;> rfl

theorem WF_of_idx {H W : Nat} {a : Arr3} (hlen : a.length = H)
    (hrow : ∀ i, i < H → (a.getD i []).length = W)
    (hpix : ∀ i j, i < H → j < W → ((a.getD i []).getD j []).length = 4) : WF H W a := by
  refine ⟨hlen, ?_⟩
  intro r hr
  obtain ⟨i, hi, hie⟩ := List.mem_iff_getElem.mp hr
  have hg : a.getD i [] = r := by
    rw [getD_eq_getElem_of_lt a [] hi, hie]
  have hiH : i < H := by omega
  constructor
  · rw [← hg]; exact hrow i hiH
  · intro p hp
    obtain ⟨j, hj, hje⟩ := List.mem_iff_getElem.mp hp
    have hjW : j < W := by
      have := hrow i hiH
      rw [hg] at this
      omega
    have : (a.getD i []).getD j [] = p := by
      rw [hg, getD_eq_getElem_of_lt r [] hj, hje]
    rw [← this]
    exact hpix i j hiH hjW

theorem setCol_getD (data : Arr3) (j : Nat) (filled : List Pixel) (i : Nat)
    (hi : i < data.length) :
    (setCol data j filled).getD i [] = (data.getD i []).set j (filled.getD i []) := by
  unfold setCol
  rw [List.getD_eq_getElem?_getD, List.getElem?_mapIdx, List.getElem?_eq_getElem hi]
  rw [getD_eq_getElem_of_lt data [] hi]
  rfl

theorem setCol_length (data : Arr3) (j : Nat) (filled : List Pixel) :
    (setCol data j filled).length = data.length := by
  unfold setCol
  rw [List.length_mapIdx]

theorem WF_setCol {H W : Nat} {data : Arr3} (h : WF H W data) (j : Nat)
    {filled : List Pixel} (hf : ∀ i, i < H → (filled.getD i []).length = 4) :
    WF H W (setCol data j filled) := by
  have hlen : data.length = H := h.1
  apply WF_of_idx
  · rw [setCol_length]; exact hlen
  · intro i hi
    rw [setCol_getD data j filled i (by omega), List.length_set]
    exact WF_row h hi
  · intro i j2 hi hj2
    rw [setCol_getD data j filled i (by omega)]
    by_cases hjj : j = j2
    · subst hjj
      by_cases hjl : j < (data.getD i []).length
      · rw [getD_set_same _ _ _ hjl]
        exact hf i hi
      · exfalso
        rw [WF_row h hi] at hjl
        omega
    · rw [getD_set_ne _ _ _ hjj]
      exact WF_pixel h hi hj2

theorem WF_foldl_setCol {H W : Nat} (cols : List Nat) {filled : List Pixel} {data : Arr3}
    (h : WF H W data) (hf : ∀ i, i < H → (filled.getD i []).length = 4) :
    WF H W (cols.foldl (fun a j => setCol a j filled) data) := by
  induction cols generalizing data with
  | nil => exact h
  | cons c tail ih =>
    simp only [List.foldl_cons]
    exact ih (WF_setCol h c hf)

theorem scanLeftAux_le (data : Arr3) (fuel : Nat) (j : Int) :
    scanLeftAux data fuel j ≤ j := by
  induction fuel generalizing j with
  | zero => exact le_refl j
  | succ fuel ih =>
    unfold scanLeftAux
    split
    · exact le_refl j
    · split
      · exact le_trans (ih (j - 1)) (by omega)
      · exact le_refl j

theorem scanRightAux_le (data : Arr3) (fuel : Nat) (j : Nat) :
    scanRightAux data fuel j ≤ j + fuel := by
  induction fuel generalizing j with
  | zero => exact Nat.le_add_right j 0
  | succ fuel ih =>
    unfold scanRightAux
    split
    · exact le_trans (ih (j + 1)) (by omega)
    · omega

theorem getCol_pix {H W : Nat} {data : Arr3} (h : WF H W data) {j : Nat} (hj : j < W) :
    ∀ i, i < H → ((getCol data j).getD i []).length = 4 := by
  intro i hi
  unfold getCol
  have hil : i < data.length := by rw [h.1]; exact hi
  rw [getD_map_of_lt _ _ _ hil, ← getD_eq_getElem_of_lt data [] hil]
  exact WF_pixel h hi hj

theorem WF_fillRight {H W : Nat} {data : Arr3} (h : WF H W data) (hW : 1 ≤ W) :
    WF H W (fillRight W data) := by
  have hle : scanLeft data ((W : Int) - 1) ≤ (W : Int) - 1 := scanLeftAux_le _ _ _
  unfold fillRight
  dsimp only
  split
  · split
    · apply WF_foldl_setCol _ h
      apply getCol_pix h
      split <;> omega
    · exact h
  · exact h

theorem WF_fillLeft {H W : Nat} {data : Arr3} (h : WF H W data) (hW : 1 ≤ W) :
    WF H W (fillLeft W data) := by
  have hle : scanRight W data 0 ≤ W - 1 := by
    have := scanRightAux_le data (W - 1 - 0) 0
    unfold scanRight
    omega
  unfold fillLeft
  dsimp only
  split
  · apply WF_foldl_setCol _ h
    apply getCol_pix h
    split <;> omega
  · exact h

theorem WF_fill {H W : Nat} {data : Arr3} (h : WF H W data) (hW : 1 ≤ W) :
    WF H W (fill_empty_borders W data) :=
  WF_fillLeft (WF_fillRight h hW) hW

theorem row_flatten_length {W : Nat} {r : Row} (hlen : r.length = W)
    (hpix : ∀ p ∈ r, p.length = 4) : (r.flatten).length = W * 4 := by
  induction r generalizing W with
  | nil => simp [← hlen]
  | cons p tail ih =>
    rw [List.flatten_cons, List.length_append]
    rw [hpix p (List.mem_cons_self p tail)]
    rw [ih rfl (fun q hq => hpix q (List.mem_cons_of_mem p hq))]
    have : W = tail.length + 1 := by rw [← hlen]; rfl
    subst this
    ring

theorem flat3_length {H W : Nat} {a : Arr3} (h : WF H W a) :
    (flat3 a).length = H * W * 4 := by
  induction a generalizing H with
  | nil =>
    have : H = 0 := by rw [← h.1]; rfl
    subst this
    simp [flat3]
  | cons r tail ih =>
    have hH : H = tail.length + 1 := by rw [← h.1]; rfl
    subst hH
    have htail : WF tail.length W tail :=
      ⟨rfl, fun r2 hr2 => h.2 r2 (List.mem_cons_of_mem r hr2)⟩
    have hr := h.2 r (List.mem_cons_self r tail)
    have e1 : flat3 (r :: tail) = r.flatten ++ flat3 tail := by
      unfold flat3
      rw [List.flatten_cons, List.flatten_append]
    rw [e1, List.length_append, row_flatten_length hr.1 hr.2, ih htail]
    ring

theorem writeVar_inv (og : Arr3) (st : AugState) (i : Nat) (a : Arr3)
    (hInv : ogInv og st) (hi : i < st.vars.length) :
    ogInv og (writeVar st i a) ∧ (writeVar st i a).vars = st.vars := by
  have hidx : 1 ≤ st.vars.getD i 0 := hInv.2.2 _ (getD_mem_of_lt _ _ hi)
  refine ⟨⟨?_, ?_, hInv.2.2⟩, rfl⟩
  · show (st.store.set (st.vars.getD i 0) a).getD 0 [] = og
    rw [getD_set_ne _ _ _ (by omega)]
    exact hInv.1
  · show 1 ≤ (st.store.set (st.vars.getD i 0) a).length
    rw [List.length_set]
    exact hInv.2.1

theorem allocVar_inv (og : Arr3) (st : AugState) (i : Nat) (a : Arr3)
    (hInv : ogInv og st) :
    ogInv og (allocVar st i a) ∧ (allocVar st i a).vars.length = st.vars.length := by
  have hs1 : 1 ≤ st.store.length := hInv.2.1
  refine ⟨⟨?_, ?_, ?_⟩, by show (st.vars.set i st.store.length).length = _; rw [List.length_set]⟩
  · show (st.store ++ [a]).getD 0 [] = og
    rw [List.getD_eq_getElem?_getD, List.getElem?_append]
    rw [if_pos (by omega : 0 < st.store.length)]
    rw [← List.getD_eq_getElem?_getD]
    exact hInv.1
  · show 1 ≤ (st.store ++ [a]).length
    rw [List.length_append]
    omega
  · intro j hj
    rcases List.mem_or_eq_of_mem_set hj with hj2 | hj2
    · exact hInv.2.2 _ hj2
    · omega

theorem stepImg_inv (og : Arr3) (op : Op) (st : AugState) (i : Nat)
    (hInv : ogInv og st) (hi : i < st.vars.length) (st2 : AugState)
    (h : stepImg op st i = some st2) :
    ogInv og st2 ∧ st2.vars.length = st.vars.length := by
  cases op with
  | adjVol delta =>
    simp only [stepImg] at h
    cases h
    obtain ⟨h1, h2⟩ := writeVar_inv og st i _ hInv hi
    exact ⟨h1, by rw [h2]⟩
  | ampF b a l =>
    simp only [stepImg] at h
    split at h
    · cases h
      obtain ⟨h1, h2⟩ := writeVar_inv og st i _ hInv hi
      exact ⟨h1, by rw [h2]⟩
    · exact absurd h (by simp)
  | ampT b a l =>
    simp only [stepImg] at h
    split at h
    · cases h
      obtain ⟨h1, h2⟩ := writeVar_inv og st i _ hInv hi
      exact ⟨h1, by rw [h2]⟩
    · exact absurd h (by simp)
  | noise sel val =>
    simp only [stepImg] at h
    cases h
    obtain ⟨h1, h2⟩ := writeVar_inv og st i _ hInv hi
    exact ⟨h1, by rw [h2]⟩
  | tshift shift =>
    simp only [stepImg] at h
    cases h
    obtain ⟨h1, h2⟩ := writeVar_inv og st i
      (fill_empty_borders ((st.store.getD 0 []).headI).length (readVar st i)) hInv hi
    obtain ⟨h3, h4⟩ := allocVar_inv og
      (writeVar st i (fill_empty_borders ((st.store.getD 0 []).headI).length (readVar st i))) i
      (npRoll (fill_empty_borders ((st.store.getD 0 []).headI).length (readVar st i)) (shift i)) h1
    refine ⟨h3, ?_⟩
    rw [h4, h2]
  | fillB =>
    simp only [stepImg] at h
    cases h
    obtain ⟨h1, h2⟩ := writeVar_inv og st i _ hInv hi
    exact ⟨h1, by rw [h2]⟩
  | combine bg =>
    simp only [stepImg] at h
    cases h
    obtain ⟨h3, h4⟩ := allocVar_inv og st i _ hInv
    exact ⟨h3, h4⟩

theorem runImgs_inv (og : Arr3) (op : Op) :
    ∀ (is : List Nat) (st : AugState), ogInv og st → (∀ i ∈ is, i < st.vars.length) →
      ogInv og (runImgs (stepImg op) st is).1 ∧
      (runImgs (stepImg op) st is).1.vars.length = st.vars.length := by
  intro is
  induction is with
  | nil => intro st h1 h2; exact ⟨h1, rfl⟩
  | cons i tail ih =>
    intro st h1 h2
    unfold runImgs
    cases hstep : stepImg op st i with
    | none => exact ⟨h1, rfl⟩
    | some st2 =>
      obtain ⟨h3, h4⟩ := stepImg_inv og op st i h1 (h2 i (List.mem_cons_self i tail)) st2 hstep
      obtain ⟨h5, h6⟩ := ih st2 h3
        (fun j hj => by rw [h4]; exact h2 j (List.mem_cons_of_mem i hj))
      exact ⟨h5, by rw [h6, h4]⟩

theorem runOp_inv (og : Arr3) (st : AugState) (op : Op) (hInv : ogInv og st) :
    ogInv og (runOp st op).1 ∧ (runOp st op).1.vars.length = st.vars.length := by
  unfold runOp
  exact runImgs_inv og op (List.range st.vars.length) st hInv
    (fun i hi => List.mem_range.mp hi)

theorem runOps_inv (og : Arr3) (ops : List Op) :
    ∀ st : AugState, ogInv og st → ogInv og (runOps st ops) := by
  induction ops with
  | nil => intro st h; exact h
  | cons op tail ih =>
    intro st h
    unfold runOps
    obtain ⟨h1, -⟩ := runOp_inv og st op h
    cases hr : runOp st op with
    | mk st2 crashed =>
      rw [hr] at h1
      cases crashed
      · exact ih st2 h1
      · exact h1


/-!
## Claim theorems (C1 - C10) and their witnesses
-/

/-- C1: the claim says `amp_freq` adds the drawn amplitude to the R, G, B
channels of rows `loc .. loc + bands - 1`; in fact, as soon as
`bands >= 1` (here a drawable draw on a 10 by 1 array: `int(10/5) = 2`),
the call `change_amp(arr[y], amplitude)` receives a whole row, and the
truth test of the multi-element comparison `arr[z] + amplitude > 255`
raises `ValueError` before any channel is modified. -/
theorem c1_amp_freq_bug :
    inRandrange 0 ((10 / 5 : Nat) : Int) 1 1 ∧
    amp_freq_var 10 1 bugFreqArr 1 5 0 =
      .error "ValueError: the truth value of an array with more than one element is ambiguous" :=
  ⟨by decide, rfl⟩

/-- C2 counterexample: on a valid 4 by 4 by 4 input (H = 4 < 5) the
`bands` draw of `amp_freq` is `randrange(0, int(4/5), 1)` =
`randrange(0, 0, 1)`, an empty range, so the method raises `ValueError`
instead of completing without internal error. -/
theorem c2_counterexample :
    WF 4 4 smallArr ∧
    amp_freq_var 4 4 smallArr 0 0 0 = .error "ValueError: empty range for randrange" :=
  ⟨by decide, rfl⟩

/-- C2 (amended): on every `[H, W, 4]` input with `H, W >= 1`, the draws of
`adjust_volume`, `random_noise` and `time_shift` (and the amplitude draw of
the band modifiers) are over nonempty ranges, but the `bands` draw of
`amp_freq` (resp. `amp_time`) is over an empty range whenever `H < 5`
(resp. `W < 5`), and for any drawable `bands` the method completes only
when `bands = 0` (leaving the variant unchanged) and raises `ValueError`
inside `change_amp` whenever `bands >= 1`. -/
theorem c2_amended (H W : Nat) (arr : Arr3) (hwf : WF H W arr)
    (hH : 1 ≤ H) (hW : 1 ≤ W) : ampSafetySpec H W arr := by
  have hHW4 : 4 ≤ H * W * 4 := by
    calc 4 = 1 * 1 * 4 := by norm_num
    _ ≤ H * W * 4 := Nat.mul_le_mul (Nat.mul_le_mul hH hW) (le_refl 4)
  have hrow0 : (arr.getD 0 []).length = W := WF_row hwf (by omega)
  have hpix0 : ((arr.getD 0 []).getD 0 []).length = 4 := WF_pixel hwf (by omega) (by omega)
  refine ⟨?_, ?_, ?_, ?_, ?_, ?_, ?_, ?_, ?_⟩
  · exact ⟨by norm_num, by norm_num, by norm_num⟩
  · exact ⟨by norm_num, by norm_num, by norm_num⟩
  · exact ⟨by norm_num, by norm_num, by norm_num⟩
  · refine ⟨le_refl 0, ?_, by norm_num⟩
    exact_mod_cast hW
  · refine ⟨le_refl 1, ?_, by norm_num⟩
    have : (4 : Int) ≤ ((H * W * 4 : Nat) : Int) := by exact_mod_cast hHW4
    omega
  · intro h5 b hbr
    obtain ⟨h1, h2, -⟩ := hbr
    have : H / 5 = 0 := Nat.div_eq_of_lt h5
    rw [this] at h2
    simp at h2
    omega
  · intro h5 b hbr
    obtain ⟨h1, h2, -⟩ := hbr
    have : W / 5 = 0 := Nat.div_eq_of_lt h5
    rw [this] at h2
    simp at h2
    omega
  · intro bands amplitude loc hbr
    obtain ⟨h1, h2, -⟩ := hbr
    have hd5 : 1 ≤ H / 5 := by
      by_contra hc
      have : H / 5 = 0 := by omega
      rw [this] at h2
      simp at h2
      omega
    have hbH : bands < (H : Int) := by
      have : ((H / 5 : Nat) : Int) ≤ (H : Int) := by
        exact_mod_cast Nat.div_le_self H 5
      omega
    constructor
    · rintro rfl
      unfold amp_freq_var
      rw [if_neg (by omega), if_neg (by omega)]
      exact ampBandLoop_zero W arr _
    · intro hb1
      unfold amp_freq_var
      rw [if_neg (by omega), if_neg (by omega)]
      exact ampBandLoop_err W arr amplitude bands.toNat hW (by omega)
        (by rw [hwf.1]; omega) (by omega) (by omega)
  · intro bands amplitude loc hbr
    obtain ⟨h1, h2, -⟩ := hbr
    have hd5 : 1 ≤ W / 5 := by
      by_contra hc
      have : W / 5 = 0 := by omega
      rw [this] at h2
      simp at h2
      omega
    have hbW : bands < (W : Int) := by
      have : ((W / 5 : Nat) : Int) ≤ (W : Int) := by
        exact_mod_cast Nat.div_le_self W 5
      omega
    constructor
    · rintro rfl
      unfold amp_time_var
      rw [if_neg (by omega), if_neg (by omega)]
      exact ampTimeLoop_eq_band H arr _ _ ▸ ampBandLoop_zero H arr _
    · intro hb1
      unfold amp_time_var
      rw [if_neg (by omega), if_neg (by omega), ampTimeLoop_eq_band]
      exact ampBandLoop_err H arr amplitude bands.toNat hH (by omega)
        (by rw [hwf.1]; omega) (by omega) (by omega)

theorem c2_witness :
    WF 5 5 w5arr ∧ 1 ≤ 5 ∧ 1 ≤ 5 ∧ ampSafetySpec 5 5 w5arr :=
  ⟨by decide, by decide, by decide,
    c2_amended 5 5 w5arr (by decide) (by decide) (by decide)⟩

/-- C3: on the 2 by 4 by 4 scenario array (columns 10s, 20s, 30s, empty)
the code copies column 1 over column 2 and never writes the empty
rightmost column, so the result differs from the claimed one (column 2
copied into column 3, everything else untouched). -/
theorem c3_border_fill_bug :
    fill_empty_borders 4 borderArr =
      [[[10,10,10,255],[20,20,20,255],[20,20,20,255],[255,255,255,255]],
       [[10,10,10,255],[20,20,20,255],[20,20,20,255],[255,255,255,255]]] ∧
    fill_empty_borders 4 borderArr ≠
      [[[10,10,10,255],[20,20,20,255],[30,30,30,255],[30,30,30,255]],
       [[10,10,10,255],[20,20,20,255],[30,30,30,255],[30,30,30,255]]] :=
  ⟨rfl, by decide⟩

/-- C4: `fill_empty_borders` is not idempotent.  On the 1 by 4 array with
columns empty, 10s, empty, 20s, one application erases the 10s column
(the left branch copies the empty column right of the nearest non-empty
one), and a second application then floods every column with the 20s
column.  The claim asserts the two results are equal. -/
theorem c4_not_idempotent :
    fill_empty_borders 4 idemArr =
      [[[255,255,255,255],[255,255,255,255],[255,255,255,255],[20,20,20,255]]] ∧
    fill_empty_borders 4 (fill_empty_borders 4 idemArr) =
      [[[20,20,20,255],[20,20,20,255],[20,20,20,255],[20,20,20,255]]] ∧
    fill_empty_borders 4 (fill_empty_borders 4 idemArr) ≠ fill_empty_borders 4 idemArr :=
  ⟨rfl, rfl, by decide⟩

/-- C5 counterexample: `change_amp` is not free of side effects — it
mutates the caller-supplied array in place (the first component of
`change_ampState` is the caller array after the call, and it differs
from the original). -/
theorem c5_counterexample :
    (change_ampState [10, 10, 10, 255] 5).1 ≠ [10, 10, 10, 255] := by decide

/-- C5 (amended): `change_amp` on a 4-channel array returns the array
with the amplitude added to each of the first three channels, each
clamped to `[0, 255]`, and the fourth channel untouched — but the
returned array is the caller-supplied array itself, updated in place,
not a fresh value. -/
theorem c5_amended (p : Pixel) (amplitude : Int) (hp : p.length = 4) :
    change_ampState p amplitude = (change_amp p amplitude, change_amp p amplitude) ∧
    (∀ z, z < 3 → (change_amp p amplitude).getD z 0 = clampStep (p.getD z 0) amplitude) ∧
    (change_amp p amplitude).getD 3 0 = p.getD 3 0 := by
  obtain ⟨a, b, c, d, rfl⟩ := len4 hp
  have hc : change_amp [a, b, c, d] amplitude =
      [clampStep a amplitude, clampStep b amplitude, clampStep c amplitude, d] := by
    simp [change_amp]
  refine ⟨rfl, ?_, ?_⟩
  · intro z hz
    rw [hc]
    interval_cases z <;> rfl
  · rw [hc]
    rfl

theorem c5_witness :
    ([10, 10, 10, 255] : Pixel).length = 4 ∧
    (change_ampState [10, 10, 10, 255] 5
        = (change_amp [10, 10, 10, 255] 5, change_amp [10, 10, 10, 255] 5) ∧
      (∀ z, z < 3 → (change_amp [10, 10, 10, 255] 5).getD z 0
          = clampStep (([10, 10, 10, 255] : Pixel).getD z 0) 5) ∧
      (change_amp [10, 10, 10, 255] 5).getD 3 0 = ([10, 10, 10, 255] : Pixel).getD 3 0) :=
  ⟨by decide, c5_amended [10, 10, 10, 255] 5 (by decide)⟩

/-- C6: per variant, `time_shift` draws `shift` from the multiples of 4 in
`[0, W)`, applies `fill_empty_borders`, and replaces the variant by the
circular shift of the filled array, as a flattened sequence: flat element
`i` moves to flat index `(i + shift) % (H * W * 4)`. -/
theorem c6_time_shift (H W : Nat) (arr : Arr3) (s : Nat)
    (hwf : WF H W arr) (hH : 1 ≤ H) (hW : 1 ≤ W)
    (hs : inRandrange 0 (W : Int) 4 (s : Int)) :
    timeShiftSpec H W arr s := by
  have hfw : WF H W (fill_empty_borders W arr) := WF_fill hwf hW
  have hlenF : (flat3 (fill_empty_borders W arr)).length = H * W * 4 := flat3_length hfw
  have hlenH : (fill_empty_borders W arr).length = H := hfw.1
  have hheadW : ((fill_empty_borders W arr).headI).length = W := by
    rw [headI_eq_getD]
    exact WF_row hfw (by omega)
  have hflat : flat3 (time_shift_var W arr s)
      = rollFlat (flat3 (fill_empty_borders W arr)) s := by
    unfold time_shift_var npRoll
    rw [hlenH, hheadW]
    exact flat3_unflat3 H W _ (by rw [rollFlat_length]; exact hlenF)
  refine ⟨?_, rfl, ?_, ?_⟩
  · intro t
    unfold inRandrange
    rw [Int.sub_zero]
    constructor
    · rintro ⟨h1, h2, h3⟩
      exact ⟨h1, h2, Int.dvd_iff_emod_eq_zero.mpr h3⟩
    · rintro ⟨h1, h2, h3⟩
      exact ⟨h1, h2, Int.dvd_iff_emod_eq_zero.mp h3⟩
  · rw [hflat, rollFlat_length, hlenF]
  · intro i hi
    rw [hflat]
    have hr := rollFlat_getD (flat3 (fill_empty_borders W arr)) s i (by omega)
    rwa [hlenF] at hr

theorem c6_witness :
    WF 1 8 w6arr ∧ inRandrange 0 ((8 : Nat) : Int) 4 ((4 : Nat) : Int) ∧
    timeShiftSpec 1 8 w6arr 4 :=
  ⟨by decide, by decide,
    c6_time_shift 1 8 w6arr 4 (by decide) (by decide) (by decide) (by decide)⟩

/-- C7: per variant, `adjust_volume` draws one delta from `[-50, 49]`
(lower inclusive, upper exclusive, step 1), adds it to the R, G, B
channels of every pixel with clipping to `[0, 255]`, leaves every alpha
channel unchanged, and on the all-255 4 x 4 x 4 scenario with delta -50
produces 205 on R, G, B and 255 on A. -/
theorem c7_adjust_volume (H W : Nat) (arr : Arr3) (delta : Int)
    (hwf : WF H W arr) (hb : bounded255 arr) (hd : inRandrange (-50) 50 1 delta) :
    volumeSpec H W arr delta := by
  refine ⟨?_, ?_, by decide⟩
  · intro t
    unfold inRandrange
    simp [Int.emod_one]
    omega
  · intro x y hx hy
    have hxl : x < arr.length := by rw [hwf.1]; exact hx
    have hyl : y < (arr.getD x []).length := by rw [WF_row hwf hx]; exact hy
    have hpx : pixelAt (adjust_volume_var arr delta) x y
        = addClipPixel (pixelAt arr x y) (volPixel delta) := by
      unfold pixelAt adjust_volume_var
      rw [getD_map_of_lt _ _ _ hxl, ← getD_eq_getElem_of_lt arr [] hxl]
      rw [getD_map_of_lt _ _ _ hyl, ← getD_eq_getElem_of_lt _ [] hyl]
    have hp4 : (pixelAt arr x y).length = 4 := WF_pixel hwf hx hy
    obtain ⟨a, b, c, d, hpe⟩ := len4 hp4
    have hval : addClipPixel (pixelAt arr x y) (volPixel delta)
        = [clipI (a + delta), clipI (b + delta), clipI (c + delta), clipI (d + 0)] := by
      rw [hpe]; simp [addClipPixel, volPixel]
    have hdb : 0 ≤ d ∧ d ≤ 255 := by
      have h3 : (3 : Nat) < (pixelAt arr x y).length := by omega
      have := bounded_chan hb hxl hyl h3
      rwa [show chanAt arr x y 3 = d by unfold chanAt; rw [hpe]; rfl] at this
    constructor
    · intro z hz
      unfold chanAt
      rw [hpx, hval, hpe]
      interval_cases z <;> rfl
    · unfold chanAt
      rw [hpx, hval, hpe]
      show clipI (d + 0) = d
      unfold clipI
      omega

theorem c7_witness :
    WF 1 1 w7arr ∧ bounded255 w7arr ∧ inRandrange (-50) 50 1 (-50) ∧
    volumeSpec 1 1 w7arr (-50) :=
  ⟨by decide, by decide, by decide,
    c7_adjust_volume 1 1 w7arr (-50) (by decide) (by decide) (by decide)⟩

/-- C8: per variant, `random_noise` visits every location, draws a
selector from `[1, H*W*4)` and tests it mod 10; a selected pixel becomes
the drawn grayscale value from `[0, 255)` with alpha 255, an unselected
pixel is left exactly as it was. -/
theorem c8_random_noise (H W : Nat) (arr : Arr3) (sel val : Nat → Nat → Int)
    (hwf : WF H W arr) (hH : 1 ≤ H) (hW : 1 ≤ W)
    (hsel : ∀ x, x < H → ∀ y, y < W → inRandrange 1 ((H * W * 4 : Nat) : Int) 1 (sel x y))
    (hval : ∀ x, x < H → ∀ y, y < W → inRandrange 0 255 1 (val x y)) :
    noiseSpec H W arr sel val := by
  refine ⟨?_, ?_, ?_⟩
  · intro t
    unfold inRandrange
    constructor
    · rintro ⟨h1, h2, -⟩
      exact ⟨h1, h2⟩
    · rintro ⟨h1, h2⟩
      exact ⟨h1, h2, by simp [Int.emod_one]⟩
  · intro t
    unfold inRandrange
    constructor
    · rintro ⟨h1, h2, -⟩
      exact ⟨h1, by omega⟩
    · rintro ⟨h1, h2⟩
      exact ⟨h1, by omega, by simp [Int.emod_one]⟩
  · intro x y hx hy
    have hxl : x < arr.length := by rw [hwf.1]; exact hx
    have hyl : y < (arr.getD x []).length := by rw [WF_row hwf hx]; exact hy
    unfold pixelAt random_noise_var
    rw [noise_outer_getD sel val W H arr x hxl, if_pos hx]
    rw [noiseRow_getD sel val x W _ y hyl]
    have hiff : (y < W ∧ sel x y % 10 = 0) ↔ (sel x y % 10 = 0) := by
      constructor
      · rintro ⟨-, h⟩
        exact h
      · intro h
        exact ⟨hy, h⟩
    rw [if_congr hiff rfl rfl]

theorem c8_witness :
    WF 1 1 w8arr ∧
    (∀ x, x < 1 → ∀ y, y < 1 → inRandrange 1 ((1 * 1 * 4 : Nat) : Int) 1 ((fun _ _ => (2 : Int)) x y)) ∧
    (∀ x, x < 1 → ∀ y, y < 1 → inRandrange 0 255 1 ((fun _ _ => (7 : Int)) x y)) ∧
    noiseSpec 1 1 w8arr (fun _ _ => 2) (fun _ _ => 7) :=
  ⟨by decide, by decide, by decide,
    c8_random_noise 1 1 w8arr (fun _ _ => 2) (fun _ _ => 7)
      (by decide) (by decide) (by decide) (by decide) (by decide)⟩

/-- C9: `combine_arr` is symmetric: each output cell is the floor of
`c / 2 + d / 2`, so swapping the two source arrays of equal (source)
shape gives the identical array. -/
theorem c9_combine_comm (H W : Nat) (og a b : Arr3)
    (hog : WF H W og) (ha : WF H W a) (hb : WF H W b) :
    combine_arr og a b = combine_arr og b a := by
  have hcomm : ∀ r s : Row, combineRow r s = combineRow s r := by
    intro r s
    unfold combineRow
    refine List.zipWith_comm_of_comm _ ?_ r s
    intro p q
    unfold combinePixel
    refine List.zipWith_comm_of_comm _ ?_ p q
    intro c d
    unfold combineCell
    rw [Int.add_comm]
  unfold combine_arr
  rw [ha.1, hb.1]
  have hfun : (fun (res : Arr3) (x : Nat) => res.set x (combineRow (a.getD x []) (b.getD x [])))
      = fun (res : Arr3) (x : Nat) => res.set x (combineRow (b.getD x []) (a.getD x [])) := by
    funext res x
    rw [hcomm]
  rw [hfun]

theorem c9_witness :
    WF 1 1 w9og ∧ WF 1 1 w9a ∧ WF 1 1 w9b ∧
    combine_arr w9og w9a w9b = combine_arr w9og w9b w9a :=
  ⟨by decide, by decide, by decide,
    c9_combine_comm 1 1 w9og w9a w9b (by decide) (by decide) (by decide)⟩

/-- C10: the source array `og_data` (cell 0 of the store) is never
mutated: after any sequence of method calls, with any draws — including
calls that raise and abort — cell 0 still holds the array loaded at
construction time; every variant starts as a deep copy in its own cell
and every write lands in a variant cell or a fresh cell. -/
theorem c10_og_preserved (og : Arr3) (n : Nat) (ops : List Op) :
    (runOps (initState og n) ops).store.getD 0 [] = og := by
  have hInit : ogInv og (initState og n) := by
    refine ⟨rfl, by simp [initState], ?_⟩
    intro i hi
    simp only [initState] at hi
    obtain ⟨x, -, rfl⟩ := List.mem_map.mp hi
    omega
  exact (runOps_inv og ops (initState og n) hInit).1

